import Mathlib

/-!
Shallow embedding of the lexical resolution engine of `vortaro/views.py`
(term normalization, exact and approximate variant lookup, translation
grouping and the search orchestrator), together with theorems settling
the specification claims about it.

Python strings are modelled as `List Char`; Django query sets are
modelled as lists in store arrival order, and the store queries
(`Variant.objects.filter(...)`, `Translation.objects.filter(...)`) as
list filters.  Python's stable `list.sort(cmp=...)` is modelled by
`List.insertionSort` with the relation "comparator result is not `gt`"
(a stable sort sorted under that relation, which is the observable
behaviour of a stable comparison sort).  The external collaborators
(the Esperanto collator `compare_esperanto_strings`, the spelling
variation generator `get_spelling_variations` and the morphological
parser `parse_morphology`) are not part of the source tree and are
taken as opaque function parameters, as the specification directs.
-/

/-- The elision mark: the ASCII apostrophe character, code point 39. -/
def apostrophe : Char := Char.ofNat 39

/-- Model of Python `unicode.lower` restricted to the alphabet this
dictionary application works with: the 26 ASCII letters plus the six
Esperanto diacritic letters.  Every other character is left fixed. -/
def lowerPairs : List (Char × Char) :=
  [(Char.ofNat 65, Char.ofNat 97), (Char.ofNat 66, Char.ofNat 98),
   (Char.ofNat 67, Char.ofNat 99), (Char.ofNat 68, Char.ofNat 100),
   (Char.ofNat 69, Char.ofNat 101), (Char.ofNat 70, Char.ofNat 102),
   (Char.ofNat 71, Char.ofNat 103), (Char.ofNat 72, Char.ofNat 104),
   (Char.ofNat 73, Char.ofNat 105), (Char.ofNat 74, Char.ofNat 106),
   (Char.ofNat 75, Char.ofNat 107), (Char.ofNat 76, Char.ofNat 108),
   (Char.ofNat 77, Char.ofNat 109), (Char.ofNat 78, Char.ofNat 110),
   (Char.ofNat 79, Char.ofNat 111), (Char.ofNat 80, Char.ofNat 112),
   (Char.ofNat 81, Char.ofNat 113), (Char.ofNat 82, Char.ofNat 114),
   (Char.ofNat 83, Char.ofNat 115), (Char.ofNat 84, Char.ofNat 116),
   (Char.ofNat 85, Char.ofNat 117), (Char.ofNat 86, Char.ofNat 118),
   (Char.ofNat 87, Char.ofNat 119), (Char.ofNat 88, Char.ofNat 120),
   (Char.ofNat 89, Char.ofNat 121), (Char.ofNat 90, Char.ofNat 122),
   ('Ĉ', 'ĉ'), ('Ĝ', 'ĝ'), ('Ĥ', 'ĥ'), ('Ĵ', 'ĵ'), ('Ŝ', 'ŝ'), ('Ŭ', 'ŭ')]

/-- Character-wise lower casing: look the character up in `lowerPairs`. -/
def pyLower (c : Char) : Char :=
  match lowerPairs.find? (fun p => p.1 == c) with
  | some p => p.2
  | none => c

/-- Model of Python `s.endswith("'")` on the character-list rendering. -/
def endsWithApo (s : List Char) : Bool :=
  s.getLast? == some apostrophe

/-- `clean_search_term` of `views.py` lines 11-26: substitute a trailing
elision mark by "o", remove every hyphen, lower-case. -/
def clean_search_term (search_term : List Char) : List Char :=
  let clean_term :=
    if endsWithApo search_term then search_term.dropLast ++ ['o'] else search_term
  let clean_term := clean_term.filter (fun c => decide (c ≠ '-'))
  clean_term.map pyLower

/-- Truncation of over-long search terms, `views.py` lines 115-116. -/
def truncate40 (s : List Char) : List Char :=
  if s.length > 40 then s.take 40 else s

/-- Lines 120-135 of `search_word`: starting from the (already cleaned
and truncated) `search_term`, substitute a trailing elision mark,
remove hyphens, re-add a hyphen when `search_term` starts with one,
and lower-case.  The dead assignment `word = clean_search_term(...)`
at line 118, whose value is immediately overwritten, is not modelled. -/
def lookup_from_display (search_term : List Char) : List Char :=
  let word :=
    if endsWithApo search_term then search_term.dropLast ++ ['o'] else search_term
  let word := word.filter (fun c => decide (c ≠ '-'))
  let word := if search_term.head? == some '-' then '-' :: word else word
  word.map pyLower

/-- The term rendered back to the user by `search_word` (`search_term`
after lines 103-116): the cleaned query, truncated to 40 characters. -/
def display_term (query : List Char) : List Char :=
  truncate40 (clean_search_term query)

/-- The lookup key `word` computed by `search_word` lines 103-135. -/
def lookup_word (query : List Char) : List Char :=
  lookup_from_display (display_term query)

/-- Character list of a string literal (for concrete test inputs). -/
def s2l (s : String) : List Char := s.data

/-- A `Word` row: identity (primary key) plus the headword string. -/
structure Word where
  id : Nat
  word : List Char
deriving DecidableEq

instance : Inhabited Word := ⟨⟨0, []⟩⟩

/-- A `Variant` row: a stored surface form referencing its headword. -/
structure Variant where
  variant : List Char
  word : Word
deriving DecidableEq

/-- A `Translation` row: definition reference, target-language name and
translated text. -/
structure Translation where
  definition : Nat
  language : List Char
  translation : List Char
deriving DecidableEq

/-- The relation "the comparator does not say `gt`", i.e. less or
equal, used by every sort call with `compare_esperanto_strings`. -/
def strRel (cmp : List Char → List Char → Ordering) (a b : List Char) : Prop :=
  cmp a b ≠ Ordering.gt

instance (cmp : List Char → List Char → Ordering) : DecidableRel (strRel cmp) :=
  fun a b => inferInstanceAs (Decidable (cmp a b ≠ Ordering.gt))

/-- The comparator of `precise_word_search` and `imprecise_word_search`
(`lambda x, y: compare_esperanto_strings(x.word, y.word)`). -/
def wordRel (cmp : List Char → List Char → Ordering) (x y : Word) : Prop :=
  strRel cmp x.word y.word

instance (cmp : List Char → List Char → Ordering) : DecidableRel (wordRel cmp) :=
  fun x y => inferInstanceAs (Decidable (strRel cmp x.word y.word))

/-- The comparator of `group_translations`
(`sort(key=lambda t: t.language, cmp=compare_esperanto_strings)`). -/
def transRel (cmp : List Char → List Char → Ordering) (t u : Translation) : Prop :=
  strRel cmp t.language u.language

instance (cmp : List Char → List Char → Ordering) : DecidableRel (transRel cmp) :=
  fun t u => inferInstanceAs (Decidable (strRel cmp t.language u.language))

/-- Contract of the collator: totality of the induced "not greater"
relation. -/
def CmpTotal (cmp : List Char → List Char → Ordering) : Prop :=
  ∀ a b, strRel cmp a b ∨ strRel cmp b a

/-- Contract of the collator: transitivity of the induced "not greater"
relation. -/
def CmpTrans (cmp : List Char → List Char → Ordering) : Prop :=
  ∀ a b c, strRel cmp a b → strRel cmp b c → strRel cmp a c

/-- A concrete comparator (compare by length) used to instantiate the
opaque collator in witnesses and counterexamples. -/
def cmpLen (a b : List Char) : Ordering := compare a.length b.length

/-- One step of the duplicate-stripping loops of `precise_word_search`
(lines 176-179) and `imprecise_word_search` (lines 206-209): append the
variant's headword unless it was already collected. -/
def collect_step (matching : List Word) (v : Variant) : List Word :=
  if v.word ∈ matching then matching else matching ++ [v.word]

/-- The duplicate-stripping loop: fold `collect_step` over the fetched
variants, in store arrival order, starting from the empty list. -/
def collect_words (variants : List Variant) : List Word :=
  variants.foldl collect_step []

/-- `precise_word_search` of `views.py` lines 163-185: fetch every
variant whose surface form equals `word`, collect the referenced
headwords stripping duplicates, and sort with the collator. -/
def precise_word_search (store : List Variant)
    (cmp : List Char → List Char → Ordering) (word : List Char) : List Word :=
  let matching_variants := store.filter (fun v => decide (v.variant = word))
  let matching_words := collect_words matching_variants
  List.insertionSort (wordRel cmp) matching_words

/-- Lines 196-200 of `imprecise_word_search`: the spelling variations,
capped at the first 999 to keep sqlite happy. -/
def capped_variations (gen : List Char → List (List Char)) (word : List Char) :
    List (List Char) :=
  let spelling_variations := gen word
  if spelling_variations.length > 999 then spelling_variations.take 999
  else spelling_variations

/-- `imprecise_word_search` of `views.py` lines 187-215: generate
spelling variations (capped at 999), fetch every variant whose surface
form is among them, collect headwords stripping duplicates, sort. -/
def imprecise_word_search (store : List Variant)
    (gen : List Char → List (List Char))
    (cmp : List Char → List Char → Ordering) (word : List Char) : List Word :=
  let spelling_variations := capped_variations gen word
  let matching_variants := store.filter (fun v => decide (v.variant ∈ spelling_variations))
  let similar_words := collect_words matching_variants
  List.insertionSort (wordRel cmp) similar_words

/-- Lines 140-141 of `search_word`: the imprecise results with the
words already found by the precise search removed. -/
def similar_word_results (store : List Variant)
    (gen : List Char → List (List Char))
    (cmp : List Char → List Char → Ordering) (word : List Char)
    (matching_words : List Word) : List Word :=
  (imprecise_word_search store gen cmp word).filter
    (fun term => decide (term ∉ matching_words))

/-- State-passing rendering of the grouping loop of
`group_translations` (lines 233-238): `cur ++ [prev]` is the group
currently being assembled (`prev` is the element the Python loop
compares against, `grouped_translations[-1][-1]`), and each completed
group is emitted when the relation with the next element fails. -/
def split_runs_go {α : Type} (R : α → α → Bool) (cur : List α) (prev : α) :
    List α → List (List α)
  | [] => [cur ++ [prev]]
  | t :: ts =>
    if R prev t then split_runs_go R (cur ++ [prev]) t ts
    else (cur ++ [prev]) :: split_runs_go R [] t ts

/-- Grouping a list into maximal runs of adjacent related elements:
the loop of `group_translations` starting from `[[translations[0]]]`. -/
def split_runs {α : Type} (R : α → α → Bool) : List α → List (List α)
  | [] => []
  | t :: ts => split_runs_go R [] t ts

/-- `group_translations` of `views.py` lines 222-240: empty input gives
an empty output; otherwise sort by language with the collator (stable)
and split into runs of equal (string-equal) language. -/
def group_translations (cmp : List Char → List Char → Ordering)
    (translations : List Translation) : List (List Translation) :=
  if translations = [] then []
  else
    let sorted := List.insertionSort (transRel cmp) translations
    split_runs (fun a b => a.language == b.language) sorted

/-- `translation_search` of `views.py` lines 217-220: fetch the
translations whose text equals `search_term` and group them. -/
def translation_search (tstore : List Translation)
    (cmp : List Char → List Char → Ordering) (search_term : List Char) :
    List (List Translation) :=
  let translations := tstore.filter (fun t => decide (t.translation = search_term))
  group_translations cmp translations

/-- The request-scoped aggregate rendered by `search_word`
(the context dictionary of lines 155-160). -/
structure SearchResult where
  search_term : List Char
  matching_words : List Word
  similar_words : List Word
  potential_parses : List (List (List Char))
  translations : List (List Translation)
deriving DecidableEq

/-- Outcome of `search_word`: either a redirect to a word page
(line 112) or a rendered results page (lines 155-160). -/
inductive SearchOutcome where
  | redirect (word : List Char)
  | results (r : SearchResult)
deriving DecidableEq

/-- `search_word` of `views.py` lines 102-160.  `query` is the trimmed
raw request parameter `s`; `rekte` models the presence of the `rekte`
request flag; `store`, `tstore` are the variant and translation tables
in arrival order; `gen`, `parse`, `cmp` are the opaque spelling
variation generator, morphological parser and collator. -/
def search_word (store : List Variant) (tstore : List Translation)
    (gen : List Char → List (List Char))
    (parse : List Char → List (List (List Char)))
    (cmp : List Char → List Char → Ordering)
    (query : List Char) (rekte : Bool) : SearchOutcome :=
  let search_term := clean_search_term query
  let direct_hits := precise_word_search store cmp search_term
  if rekte = true ∧ direct_hits ≠ [] then
    SearchOutcome.redirect direct_hits.headI.word
  else
    let display := truncate40 search_term
    let word := lookup_from_display display
    let matching_words := precise_word_search store cmp word
    SearchOutcome.results
      ⟨display, matching_words,
       similar_word_results store gen cmp word matching_words,
       (parse word).take 2,
       translation_search tstore cmp display⟩

/-- A trivial spelling variation generator for concrete instances. -/
def gen0 : List Char → List (List Char) := fun _ => []

/-- A trivial morphological parser for concrete instances. -/
def parse0 : List Char → List (List (List Char)) := fun _ => []

/-- Concrete translation row: English gloss of "hundo" stored with the
capitalised text "Hundo". -/
def hundoT : Translation := ⟨1, s2l "en", s2l "Hundo"⟩

/-- Concrete headword "ao". -/
def aoW : Word := ⟨1, s2l "ao"⟩

/-- Concrete headword "ŝafo". -/
def sxafoW : Word := ⟨1, s2l "ŝafo"⟩

/-- Concrete headwords for resolver instances. -/
def banoW : Word := ⟨1, s2l "bano"⟩

/-- A second distinct headword with a string of the same length. -/
def katoW : Word := ⟨2, s2l "kato"⟩

/-- A store where the surface form "bo" maps to two headwords and
occurs once more as a duplicate. -/
def store6 : List Variant :=
  [⟨s2l "bo", banoW⟩, ⟨s2l "bo", katoW⟩, ⟨s2l "xx", banoW⟩, ⟨s2l "bo", banoW⟩]

/-- Concrete translations of the specification scenario. -/
def dogT : Translation := ⟨1, s2l "English", s2l "dog"⟩

/-- French gloss sharing the definition of `dogT`. -/
def chienT : Translation := ⟨1, s2l "French", s2l "chien"⟩

/-- A second English gloss under another definition. -/
def catT : Translation := ⟨2, s2l "English", s2l "cat"⟩

/-- Scenario input list for the translation grouper. -/
def ts7 : List Translation := [dogT, chienT, catT]

/-- A generator producing exactly one candidate surface form "ka". -/
def gen8 : List Char → List (List Char) := fun _ => [s2l "ka"]

/-- A generator producing 1500 candidate surface forms. -/
def gen9 : List Char → List (List Char) := fun _ => List.replicate 1500 []

/-- Characters produced by `lowerPairs` are never themselves keys of
the table: lower-case output is a fixed point of another lookup. -/
theorem lowerPairs_snd_not_key :
    ∀ p ∈ lowerPairs, lowerPairs.find? (fun q => q.1 == p.2) = none := by
  decide

/-- No character lower-cases to a hyphen except the hyphen itself
(the table never outputs a hyphen). -/
theorem lowerPairs_snd_ne_hyphen : ∀ p ∈ lowerPairs, p.2 ≠ '-' := by
  decide

/-- Lower casing is idempotent character-wise. -/
theorem pyLower_idem (c : Char) : pyLower (pyLower c) = pyLower c := by
  cases h : lowerPairs.find? (fun p => p.1 == c) with
  | none => simp [pyLower, h]
  | some p =>
    have hp : p ∈ lowerPairs := List.mem_of_find?_eq_some h
    simp [pyLower, h, lowerPairs_snd_not_key p hp]

/-- Lower casing maps non-hyphens to non-hyphens. -/
theorem pyLower_ne_hyphen {c : Char} (hc : c ≠ '-') : pyLower c ≠ '-' := by
  cases h : lowerPairs.find? (fun p => p.1 == c) with
  | none => simpa [pyLower, h] using hc
  | some p =>
    have hp : p ∈ lowerPairs := List.mem_of_find?_eq_some h
    simpa [pyLower, h] using lowerPairs_snd_ne_hyphen p hp

/-- A cleaned search term contains no hyphen. -/
theorem clean_no_hyphen (s : List Char) : ∀ c ∈ clean_search_term s, c ≠ '-' := by
  intro c hc
  rw [clean_search_term] at hc
  rcases List.mem_map.mp hc with ⟨b, hb, rfl⟩
  have hb' := List.of_mem_filter hb
  exact pyLower_ne_hyphen (by simpa using hb')

/-- A cleaned search term is a fixed point of lower casing. -/
theorem clean_map_pyLower (s : List Char) :
    (clean_search_term s).map pyLower = clean_search_term s := by
  rw [clean_search_term, List.map_map]
  exact List.map_congr_left (fun c _ => pyLower_idem c)

/-- `clean_search_term` fixes any string with no trailing elision mark,
no hyphen, and already lower-case. -/
theorem clean_fixed {y : List Char} (h1 : endsWithApo y = false)
    (h2 : ∀ c ∈ y, c ≠ '-') (h3 : y.map pyLower = y) :
    clean_search_term y = y := by
  show ((if endsWithApo y then y.dropLast ++ ['o'] else y).filter
    (fun c => decide (c ≠ '-'))).map pyLower = y
  rw [if_neg (by simp [h1]), List.filter_eq_self.mpr
    (fun c hc => decide_eq_true (h2 c hc))]
  exact h3

/-- Every word in a `collect_step` fold comes from the accumulator or
from one of the folded variants. -/
theorem collect_foldl_mem :
    ∀ (vs : List Variant) (acc : List Word) (x : Word),
      x ∈ vs.foldl collect_step acc → x ∈ acc ∨ ∃ v, v ∈ vs ∧ v.word = x := by
  intro vs
  induction vs with
  | nil => intro acc x h; exact Or.inl h
  | cons v vs ih =>
    intro acc x h
    rw [List.foldl_cons] at h
    rcases ih _ x h with hacc | ⟨u, hu, hx⟩
    · rw [collect_step] at hacc
      by_cases hm : v.word ∈ acc
      · rw [if_pos hm] at hacc; exact Or.inl hacc
      · rw [if_neg hm] at hacc
        rcases List.mem_append.mp hacc with h1 | h2
        · exact Or.inl h1
        · exact Or.inr ⟨v, List.mem_cons_self _ _, (List.mem_singleton.mp h2).symm⟩
    · exact Or.inr ⟨u, List.mem_cons_of_mem _ hu, hx⟩

/-- Every collected word is the headword of one of the variants. -/
theorem collect_words_mem {vs : List Variant} {x : Word}
    (h : x ∈ collect_words vs) : ∃ v, v ∈ vs ∧ v.word = x := by
  rcases collect_foldl_mem vs [] x h with h0 | h1
  · exact absurd h0 (List.not_mem_nil x)
  · exact h1

/-- `collect_step` preserves the no-duplicates invariant. -/
theorem collect_step_nodup {acc : List Word} {v : Variant}
    (h : acc.Nodup) : (collect_step acc v).Nodup := by
  rw [collect_step]
  split
  · exact h
  · next hm => simpa using h.concat hm

/-- The fold keeps the accumulator duplicate-free. -/
theorem collect_foldl_nodup :
    ∀ (vs : List Variant) (acc : List Word),
      acc.Nodup → (vs.foldl collect_step acc).Nodup := by
  intro vs
  induction vs with
  | nil => intro acc h; exact h
  | cons v vs ih =>
    intro acc h
    rw [List.foldl_cons]
    exact ih _ (collect_step_nodup h)

/-- The collected word list has no duplicates. -/
theorem collect_words_nodup (vs : List Variant) : (collect_words vs).Nodup :=
  collect_foldl_nodup vs [] List.nodup_nil

/-- Flattening the runs rebuilds the scanned list. -/
theorem split_runs_go_flatten {α : Type} (R : α → α → Bool) :
    ∀ (l cur : List α) (prev : α),
      (split_runs_go R cur prev l).flatten = cur ++ prev :: l := by
  intro l
  induction l with
  | nil => intro cur prev; simp [split_runs_go]
  | cons t ts ih =>
    intro cur prev
    rw [split_runs_go]
    split
    · rw [ih]; simp
    · simp [ih]

/-- Flattening the groups rebuilds the input list. -/
theorem split_runs_flatten {α : Type} (R : α → α → Bool) (l : List α) :
    (split_runs R l).flatten = l := by
  cases l with
  | nil => rfl
  | cons t ts => rw [split_runs, split_runs_go_flatten]; rfl

/-- Every produced group is non-empty. -/
theorem split_runs_go_ne_nil {α : Type} (R : α → α → Bool) :
    ∀ (l cur : List α) (prev : α) (g : List α),
      g ∈ split_runs_go R cur prev l → g ≠ [] := by
  intro l
  induction l with
  | nil =>
    intro cur prev g hg
    rw [split_runs_go] at hg
    simp only [List.mem_singleton] at hg
    subst hg; simp
  | cons t ts ih =>
    intro cur prev g hg
    rw [split_runs_go] at hg
    split at hg
    · exact ih _ _ g hg
    · rcases List.mem_cons.mp hg with rfl | h
      · simp
      · exact ih _ _ g h

/-- All elements of `cur ++ [prev]` share one key when the invariant
holds for `cur`. -/
theorem all_key_eq_append {α β : Type} (f : α → β) {cur : List α} {prev : α}
    (hcur : ∀ x ∈ cur, f x = f prev) :
    ∀ x ∈ cur ++ [prev], ∀ y ∈ cur ++ [prev], f x = f y := by
  have hall : ∀ x ∈ cur ++ [prev], f x = f prev := by
    intro x hx
    rcases List.mem_append.mp hx with h | h
    · exact hcur x h
    · rw [List.mem_singleton.mp h]
  intro x hx y hy
  rw [hall x hx, hall y hy]

/-- Splitting on key equality yields groups of constant key. -/
theorem split_runs_go_key {α β : Type} [BEq β] [LawfulBEq β] (f : α → β) :
    ∀ (l cur : List α) (prev : α), (∀ x ∈ cur, f x = f prev) →
      ∀ g ∈ split_runs_go (fun a b => f a == f b) cur prev l,
        ∀ x ∈ g, ∀ y ∈ g, f x = f y := by
  intro l
  induction l with
  | nil =>
    intro cur prev hcur g hg
    rw [split_runs_go] at hg
    simp only [List.mem_singleton] at hg
    subst hg
    exact all_key_eq_append f hcur
  | cons t ts ih =>
    intro cur prev hcur g hg
    rw [split_runs_go] at hg
    split at hg
    · next hrel =>
      have hpt : f prev = f t := by simpa using hrel
      refine ih (cur ++ [prev]) t ?_ g hg
      intro z hz
      rcases List.mem_append.mp hz with h | h
      · rw [hcur z h, hpt]
      · rw [List.mem_singleton.mp h, hpt]
    · rcases List.mem_cons.mp hg with rfl | h
      · exact all_key_eq_append f hcur
      · exact ih [] t (by simp) g h

/-- The length comparator is total. -/
theorem cmpLen_total : CmpTotal cmpLen := by
  intro a b
  simp only [strRel, cmpLen, ne_eq, Nat.compare_eq_gt]
  omega

/-- The length comparator is transitive. -/
theorem cmpLen_trans : CmpTrans cmpLen := by
  intro a b c
  simp only [strRel, cmpLen, ne_eq, Nat.compare_eq_gt]
  omega

/-- C1: the claim says the search-term normalization path preserves a
single leading hyphen, with lookup key "-iĝi" for input "-iĝi".  The
code strips every hyphen at line 105 before the preservation branch of
lines 130-131 can run, so the lookup key is "iĝi". -/
theorem C1_leading_hyphen_eval :
    lookup_word (s2l "-iĝi") = s2l "iĝi" ∧ lookup_word (s2l "-iĝi") ≠ s2l "-iĝi" := by
  decide

/-- C2: the claim says the reverse translation lookup uses the original
trimmed raw term.  The code passes the cleaned, truncated term: for
query "Hundo" it queries "hundo", finds nothing, and renders an empty
translation list, while querying the raw term "Hundo" would have found
the stored record. -/
theorem C2_translation_term_eval :
    search_word [] [hundoT] gen0 parse0 cmpLen (s2l "Hundo") false =
      SearchOutcome.results ⟨s2l "hundo", [], [], [], []⟩ ∧
    translation_search [hundoT] cmpLen (s2l "Hundo") = [[hundoT]] := by
  decide

/-- C3: the claim says the display term is the trimmed raw input
truncated to 40 characters and otherwise unmodified.  The code renders
the cleaned term: for raw input "SANKTA-JUL-ARB-O" the rendered term is
"sanktajularbo" (hyphens removed, lower-cased), identical to the
lookup key. -/
theorem C3_display_term_eval :
    display_term (s2l "SANKTA-JUL-ARB-O") = s2l "sanktajularbo" ∧
    lookup_word (s2l "SANKTA-JUL-ARB-O") = s2l "sanktajularbo" := by
  decide

/-- C4 counterexample: `clean_search_term` is not idempotent.  For the
input "a'-" the first pass leaves a trailing elision mark (the hyphen
hid it from the elision branch), so a second pass changes the result
from "a'" to "ao". -/
theorem C4_idempotence_counterexample :
    clean_search_term (clean_search_term ['a', apostrophe, '-']) ≠
      clean_search_term ['a', apostrophe, '-'] := by
  decide

/-- C4 amended: `clean_search_term` is idempotent on every input whose
cleaned form does not end with the elision mark. -/
theorem C4_idempotence_amended (s : List Char)
    (h : endsWithApo (clean_search_term s) = false) :
    clean_search_term (clean_search_term s) = clean_search_term s :=
  clean_fixed h (clean_no_hyphen s) (clean_map_pyLower s)

/-- C4 witness: the amended idempotence at the concrete input "Vort-O". -/
theorem C4_idempotence_witness :
    endsWithApo (clean_search_term (s2l "Vort-O")) = false ∧
    clean_search_term (clean_search_term (s2l "Vort-O")) =
      clean_search_term (s2l "Vort-O") :=
  ⟨by decide, C4_idempotence_amended (s2l "Vort-O") (by decide)⟩

/-- C6: every headword returned by `precise_word_search` is referenced
by a stored variant whose surface form equals the key exactly; the
returned list has no duplicates; it is a permutation of the
first-occurrence-wins collection from the store; it is sorted under the
collator`s not-greater relation; and the sort is stable with respect to
the collected arrival order. -/
theorem C6_exact_resolver (store : List Variant)
    (cmp : List Char → List Char → Ordering) (k : List Char)
    (htot : CmpTotal cmp) (htr : CmpTrans cmp) :
    (∀ h ∈ precise_word_search store cmp k,
      ∃ v, v ∈ store ∧ v.variant = k ∧ v.word = h) ∧
    (precise_word_search store cmp k).Nodup ∧
    List.Perm (precise_word_search store cmp k)
      (collect_words (store.filter (fun v => decide (v.variant = k)))) ∧
    List.Sorted (wordRel cmp) (precise_word_search store cmp k) ∧
    (∀ x y : Word, wordRel cmp x y →
      List.Sublist [x, y] (collect_words (store.filter (fun v => decide (v.variant = k)))) →
      List.Sublist [x, y] (precise_word_search store cmp k)) := by
  have hperm : List.Perm (precise_word_search store cmp k)
      (collect_words (store.filter (fun v => decide (v.variant = k)))) :=
    List.perm_insertionSort _ _
  haveI : IsTotal Word (wordRel cmp) := ⟨fun a b => htot a.word b.word⟩
  haveI : IsTrans Word (wordRel cmp) := ⟨fun a b c => htr a.word b.word c.word⟩
  refine ⟨?_, ?_, hperm, ?_, ?_⟩
  · intro h hh
    rcases collect_words_mem (hperm.mem_iff.mp hh) with ⟨v, hv, hw⟩
    have hv' := List.mem_filter.mp hv
    exact ⟨v, hv'.1, of_decide_eq_true hv'.2, hw⟩
  · exact hperm.nodup_iff.mpr (collect_words_nodup _)
  · exact List.sorted_insertionSort _ _
  · intro x y hxy hsub
    exact List.pair_sublist_insertionSort hxy hsub

/-- C6 witness: the exact resolver property at the concrete store
`store6` with key "bo" and the length comparator. -/
theorem C6_exact_resolver_witness :
    CmpTotal cmpLen ∧ CmpTrans cmpLen ∧
    ((∀ h ∈ precise_word_search store6 cmpLen (s2l "bo"),
      ∃ v, v ∈ store6 ∧ v.variant = s2l "bo" ∧ v.word = h) ∧
    (precise_word_search store6 cmpLen (s2l "bo")).Nodup ∧
    List.Perm (precise_word_search store6 cmpLen (s2l "bo"))
      (collect_words (store6.filter (fun v => decide (v.variant = s2l "bo")))) ∧
    List.Sorted (wordRel cmpLen) (precise_word_search store6 cmpLen (s2l "bo")) ∧
    (∀ x y : Word, wordRel cmpLen x y →
      List.Sublist [x, y] (collect_words (store6.filter (fun v => decide (v.variant = s2l "bo")))) →
      List.Sublist [x, y] (precise_word_search store6 cmpLen (s2l "bo")))) :=
  ⟨cmpLen_total, cmpLen_trans,
    C6_exact_resolver store6 cmpLen (s2l "bo") cmpLen_total cmpLen_trans⟩

/-- C7: the translation grouper maps the empty list to the empty list;
for any input the flattening of its groups is a permutation of the
input (no record lost or duplicated); every group is non-empty and its
elements share one language; any element of an earlier group compares
not-greater (by language, under the collator) than any element of a
later group; and two records of equal language keep their original
relative order. -/
theorem C7_translation_grouper (cmp : List Char → List Char → Ordering)
    (htot : CmpTotal cmp) (htr : CmpTrans cmp) (ts : List Translation) :
    group_translations cmp [] = [] ∧
    List.Perm (group_translations cmp ts).flatten ts ∧
    (∀ g ∈ group_translations cmp ts, g ≠ []) ∧
    (∀ g ∈ group_translations cmp ts, ∀ x ∈ g, ∀ y ∈ g, x.language = y.language) ∧
    List.Pairwise (fun g h => ∀ x ∈ g, ∀ y ∈ h, transRel cmp x y)
      (group_translations cmp ts) ∧
    (∀ x y : Translation, x.language = y.language → List.Sublist [x, y] ts →
      List.Sublist [x, y] (group_translations cmp ts).flatten) := by
  haveI : IsTotal Translation (transRel cmp) := ⟨fun a b => htot a.language b.language⟩
  haveI : IsTrans Translation (transRel cmp) :=
    ⟨fun a b c => htr a.language b.language c.language⟩
  by_cases hts : ts = []
  · subst hts
    refine ⟨rfl, by simp [group_translations], by simp [group_translations],
      by simp [group_translations], by simp [group_translations], ?_⟩
    intro x y _ hsub
    cases hsub
  · have hgroup : group_translations cmp ts =
        split_runs (fun a b => a.language == b.language)
          (List.insertionSort (transRel cmp) ts) := by
      rw [group_translations, if_neg hts]
    have hflat : (group_translations cmp ts).flatten =
        List.insertionSort (transRel cmp) ts := by
      rw [hgroup, split_runs_flatten]
    have hsorted : List.Pairwise (transRel cmp)
        (List.insertionSort (transRel cmp) ts) :=
      List.sorted_insertionSort (transRel cmp) ts
    refine ⟨rfl, ?_, ?_, ?_, ?_, ?_⟩
    · rw [hflat]; exact List.perm_insertionSort _ _
    · intro g hg
      rw [hgroup] at hg
      cases hl : List.insertionSort (transRel cmp) ts with
      | nil => rw [hl, split_runs] at hg; cases hg
      | cons t rest =>
        rw [hl, split_runs] at hg
        exact split_runs_go_ne_nil _ rest [] t g hg
    · intro g hg
      rw [hgroup] at hg
      cases hl : List.insertionSort (transRel cmp) ts with
      | nil => rw [hl, split_runs] at hg; cases hg
      | cons t rest =>
        rw [hl, split_runs] at hg
        exact split_runs_go_key Translation.language rest [] t (by simp) g hg
    · have hp : List.Pairwise (transRel cmp) (group_translations cmp ts).flatten := by
        rw [hflat]; exact hsorted
      exact (List.pairwise_flatten.mp hp).2
    · intro x y hxy hsub
      rw [hflat]
      have hself : strRel cmp y.language y.language :=
        (htot y.language y.language).elim id id
      have hrel : transRel cmp x y := by
        show strRel cmp x.language y.language
        rw [hxy]
        exact hself
      exact List.pair_sublist_insertionSort hrel hsub

/-- C7 witness: the grouper property at the concrete scenario list
`ts7` (English dog, French chien, English cat) under the length
comparator. -/
theorem C7_translation_grouper_witness :
    CmpTotal cmpLen ∧ CmpTrans cmpLen ∧
    (group_translations cmpLen [] = [] ∧
    List.Perm (group_translations cmpLen ts7).flatten ts7 ∧
    (∀ g ∈ group_translations cmpLen ts7, g ≠ []) ∧
    (∀ g ∈ group_translations cmpLen ts7, ∀ x ∈ g, ∀ y ∈ g,
      x.language = y.language) ∧
    List.Pairwise (fun g h => ∀ x ∈ g, ∀ y ∈ h, transRel cmpLen x y)
      (group_translations cmpLen ts7) ∧
    (∀ x y : Translation, x.language = y.language → List.Sublist [x, y] ts7 →
      List.Sublist [x, y] (group_translations cmpLen ts7).flatten)) :=
  ⟨cmpLen_total, cmpLen_trans,
    C7_translation_grouper cmpLen cmpLen_total cmpLen_trans ts7⟩

/-- C8: the approximate results assembled by the orchestrator are
disjoint from the exclusion list, both for an arbitrary exclusion list
and, inside `search_word`, for the precise matches of the same key. -/
theorem C8_approximate_disjoint (store : List Variant)
    (gen : List Char → List (List Char))
    (cmp : List Char → List Char → Ordering) (k : List Char)
    (exclude : List Word) (tstore : List Translation)
    (parse : List Char → List (List (List Char)))
    (query : List Char) (rekte : Bool) :
    (∀ h ∈ similar_word_results store gen cmp k exclude, h ∉ exclude) ∧
    (∀ r : SearchResult,
      search_word store tstore gen parse cmp query rekte = SearchOutcome.results r →
      ∀ h ∈ r.similar_words, h ∉ r.matching_words) := by
  have base : ∀ (ex : List Word) (key : List Char) (h : Word),
      h ∈ similar_word_results store gen cmp key ex → h ∉ ex := by
    intro ex key h hh
    exact of_decide_eq_true (List.mem_filter.mp hh).2
  refine ⟨fun h hh => base exclude k h hh, ?_⟩
  intro r hr
  simp only [search_word] at hr
  split at hr
  · exact absurd hr (by simp)
  · injection hr with hr
    subst hr
    intro h hh
    exact base _ _ h hh

/-- C8 witness: the disjointness at a concrete store, generator, key
and exclusion list. -/
theorem C8_approximate_disjoint_witness :
    banoW ∈ similar_word_results [⟨s2l "ka", banoW⟩] gen8 cmpLen (s2l "zz") [katoW] ∧
    banoW ∉ [katoW] :=
  ⟨by decide,
    (C8_approximate_disjoint [⟨s2l "ka", banoW⟩] gen8 cmpLen (s2l "zz") [katoW]
      [] parse0 [] false).1 banoW (by decide)⟩

/-- C9: whenever the generator yields more than 999 candidate surface
forms, exactly the first 999 in generator order are kept for the store
query; at most 999 are passed through unchanged; a candidate set of
1500 is truncated to exactly the first 999; and the approximate search
result depends on the generator only through the capped candidate
list (the dropped rest is silently ignored, never an error). -/
theorem C9_candidate_cap (gen : List Char → List (List Char))
    (store : List Variant) (cmp : List Char → List Char → Ordering)
    (w : List Char) :
    ((gen w).length > 999 → capped_variations gen w = (gen w).take 999) ∧
    ((gen w).length ≤ 999 → capped_variations gen w = gen w) ∧
    ((gen w).length = 1500 → capped_variations gen w = (gen w).take 999 ∧
      (capped_variations gen w).length = 999) ∧
    (∀ gen2 : List Char → List (List Char),
      capped_variations gen w = capped_variations gen2 w →
      imprecise_word_search store gen cmp w = imprecise_word_search store gen2 cmp w) := by
  have hcap : ∀ (g : List Char → List (List Char)), (g w).length > 999 →
      capped_variations g w = (g w).take 999 := by
    intro g h
    show (if (g w).length > 999 then (g w).take 999 else g w) = (g w).take 999
    rw [if_pos h]
  refine ⟨hcap gen, ?_, ?_, ?_⟩
  · intro h
    show (if (gen w).length > 999 then (gen w).take 999 else gen w) = gen w
    rw [if_neg (by omega)]
  · intro h
    have h1 : (gen w).length > 999 := by omega
    refine ⟨hcap gen h1, ?_⟩
    rw [hcap gen h1, List.length_take, h]
    decide
  · intro gen2 heq
    unfold imprecise_word_search
    rw [heq]

/-- C9 witness: a generator with 1500 candidates is truncated to
exactly the first 999. -/
theorem C9_candidate_cap_witness :
    (gen9 (s2l "ao")).length = 1500 ∧
    (capped_variations gen9 (s2l "ao") = (gen9 (s2l "ao")).take 999 ∧
      (capped_variations gen9 (s2l "ao")).length = 999) :=
  ⟨by simp only [gen9, List.length_replicate],
    (C9_candidate_cap gen9 [] cmpLen (s2l "ao")).2.2.1
      (by simp only [gen9, List.length_replicate])⟩

/-- C5 counterexample: the claim, read with "lookup key" as the key the
search path computes (`lookup_word`), fails: for the query "a'-" the
lookup key is "ao" and a store with a variant "ao" makes the exact
resolver succeed on it, yet the direct branch tests the untruncated
`clean_search_term` result "a'" and does not redirect. -/
theorem C5_direct_request_counterexample :
    ¬ (∀ (store : List Variant) (tstore : List Translation)
        (gen : List Char → List (List Char))
        (parse : List Char → List (List (List Char)))
        (cmp : List Char → List Char → Ordering) (query : List Char),
        CmpTotal cmp → CmpTrans cmp →
        precise_word_search store cmp (lookup_word query) ≠ [] →
        search_word store tstore gen parse cmp query true =
          SearchOutcome.redirect
            (precise_word_search store cmp (lookup_word query)).headI.word) := by
  intro hclaim
  have h := hclaim [⟨s2l "ao", aoW⟩] [] gen0 parse0 cmpLen
    (['a'] ++ [apostrophe] ++ ['-']) cmpLen_total cmpLen_trans (by decide)
  exact absurd h (by decide)

/-- C5 amended: when the direct-request flag is set and the exact
resolver applied to `clean_search_term` of the trimmed raw query (the
key the direct branch actually uses, before truncation and without the
leading-hyphen special case) yields at least one headword, the
orchestrator short-circuits and redirects to the first headword of the
collator-sorted exact-match list, producing no full result. -/
theorem C5_direct_request_amended (store : List Variant)
    (tstore : List Translation) (gen : List Char → List (List Char))
    (parse : List Char → List (List (List Char)))
    (cmp : List Char → List Char → Ordering) (query : List Char)
    (h : precise_word_search store cmp (clean_search_term query) ≠ []) :
    search_word store tstore gen parse cmp query true =
      SearchOutcome.redirect
        (precise_word_search store cmp (clean_search_term query)).headI.word := by
  simp only [search_word]
  rw [if_pos ⟨trivial, h⟩]

/-- C5 witness: raw input "ŝafo'" with a stored variant "ŝafoo" for the
headword "ŝafo" redirects to "ŝafo". -/
theorem C5_direct_request_witness :
    precise_word_search [⟨s2l "ŝafoo", sxafoW⟩] cmpLen
      (clean_search_term (s2l "ŝafo" ++ [apostrophe])) ≠ [] ∧
    search_word [⟨s2l "ŝafoo", sxafoW⟩] [] gen0 parse0 cmpLen
      (s2l "ŝafo" ++ [apostrophe]) true =
      SearchOutcome.redirect (s2l "ŝafo") := by
  refine ⟨by decide, ?_⟩
  have h := C5_direct_request_amended [⟨s2l "ŝafoo", sxafoW⟩] [] gen0 parse0 cmpLen
    (s2l "ŝafo" ++ [apostrophe]) (by decide)
  rw [h]
  decide

/-- C10 counterexample: the resolvers do not return empty lists on the
empty key for *every* store state: a store holding a variant with an
empty surface form makes the exact resolver return its headword. -/
theorem C10_empty_key_counterexample :
    ¬ (∀ (store : List Variant) (gen : List Char → List (List Char))
        (cmp : List Char → List Char → Ordering),
        precise_word_search store cmp [] = [] ∧
        imprecise_word_search store gen cmp [] = []) := by
  intro h
  exact absurd (h [⟨[], banoW⟩] gen0 cmpLen).1 (by decide)

/-- C10 amended: the empty key is handled as an ordinary key with no
wildcard behaviour: the exact resolver returns the empty list on every
store with no empty-surface variant, and the approximate resolver
returns the empty list on every store none of whose surface forms is
among the (capped) spelling-variation candidates of the empty key. -/
theorem C10_empty_key_amended (store : List Variant)
    (gen : List Char → List (List Char))
    (cmp : List Char → List Char → Ordering) :
    ((∀ v ∈ store, v.variant ≠ []) → precise_word_search store cmp [] = []) ∧
    ((∀ v ∈ store, v.variant ∉ capped_variations gen []) →
      imprecise_word_search store gen cmp [] = []) := by
  constructor
  · intro h
    have hfil : store.filter (fun v => decide (v.variant = [])) = [] :=
      List.filter_eq_nil_iff.mpr (fun v hv => by simp [h v hv])
    show List.insertionSort (wordRel cmp)
      (collect_words (store.filter (fun v => decide (v.variant = [])))) = []
    rw [hfil]
    rfl
  · intro h
    have hfil : store.filter
        (fun v => decide (v.variant ∈ capped_variations gen [])) = [] :=
      List.filter_eq_nil_iff.mpr (fun v hv => by simp [h v hv])
    show List.insertionSort (wordRel cmp)
      (collect_words (store.filter
        (fun v => decide (v.variant ∈ capped_variations gen [])))) = []
    rw [hfil]
    rfl

/-- C10 witness: both resolvers return the empty list on the empty key
for a concrete store with one ordinary variant. -/
theorem C10_empty_key_witness :
    (∀ v ∈ [Variant.mk (s2l "abc") banoW], v.variant ≠ []) ∧
    (∀ v ∈ [Variant.mk (s2l "abc") banoW],
      v.variant ∉ capped_variations gen0 []) ∧
    precise_word_search [Variant.mk (s2l "abc") banoW] cmpLen [] = [] ∧
    imprecise_word_search [Variant.mk (s2l "abc") banoW] gen0 cmpLen [] = [] := by
  refine ⟨by decide, by decide, ?_, ?_⟩
  · exact (C10_empty_key_amended [Variant.mk (s2l "abc") banoW] gen0 cmpLen).1 (by decide)
  · exact (C10_empty_key_amended [Variant.mk (s2l "abc") banoW] gen0 cmpLen).2 (by decide)
